import Mathlib

/-!
# Verification of libint's derivative-index maps and integer-partition iterator

Shallow embedding of the combinatorial core of the repository:

* `src/include/libint2/intpart_iter.h` —
  `FixedOrderedIntegerPartitionIterator` (ordered integer partitions in
  reverse-lexicographic order): the state is the partition, a sequence of
  natural numbers, embedded as `List ℕ`; the private static member functions
  `first`, `last`, `next` operating on a suffix pointer become functions on
  the suffix list.

* `src/include/libint2/deriv_map.h` — `DerivMapGenerator`:
  combinations-with-repetition enumeration (`cwr_recursion`,
  `generate_multi_index_lookup`), the derivative count (`how_many_derivs`),
  the derivative-index permutation table (`generate_deriv_index_map`) and the
  cache accessor (`instance`).

Machine integers (`int`, `intmax_t`, unsigned types) are embedded as `ℕ`
(all quantities in the modelled code are non-negative counts and indices and
stay far below any overflow boundary for the inputs the theorems quantify
over); `std::vector` becomes `List`.
-/

/-! ## Embedding of `intpart_iter.h` -/

/-- `partition[size-1]`: the final element of a partition suffix (the code
asserts `size > 0`, so the `[]` case is unreachable in checked executions). -/
def lastElem : List ℕ → ℕ
  | [] => 0
  | [x] => x
  | _ :: y :: t => lastElem (y :: t)

/-- Embeds the private static `first(partition, size)`: the total charge is
collapsed onto the first slot and the rest is zeroed
(`std::accumulate`, `std::fill`, `partition[0] = n`). -/
def first_ : List ℕ → List ℕ
  | [] => []
  | x :: t => (x :: t).sum :: t.map (fun _ => 0)

/-- Embeds the private static `last(partition, size)`: the suffix is terminal
when its final element carries the whole sum. -/
def last_ (p : List ℕ) : Bool := lastElem p == p.sum

/-- Embeds the private static `next(partition, size)`: `size == 1` returns
unchanged; if the tail suffix is terminal, decrement the head, increment the
second slot and reset the tail to its `first` configuration; otherwise recurse
into the tail.  (The `assert(partition[0] != 0u)` guarding the decrement is
modelled separately by `next_asserts`, which is evaluated on the same
pre-state, exactly as the C++ assert runs before any mutation.) -/
def next_ : List ℕ → List ℕ
  | [] => []
  | [x] => [x]
  | x :: y :: rest =>
    if last_ (y :: rest) then (x - 1) :: first_ ((y + 1) :: rest)
    else x :: next_ (y :: rest)

/-- Whether the call `next(partition, size)` trips the internal
`assert(partition[0] != 0u)` (checked on the pre-state, before the
decrement).  The `[]` case corresponds to the `assert(size > 0)`. -/
def next_asserts : List ℕ → Bool
  | [] => true
  | [_] => false
  | x :: y :: rest =>
    if last_ (y :: rest) then x == 0
    else next_asserts (y :: rest)

/-- Embeds the `(n, k)` constructor: fill `k` slots with zero, then store `n`
in slot 0. -/
def ctorPartition (n k : ℕ) : List ℕ := (List.replicate k 0).set 0 n

/-- Embeds `range_size()`: `result = 1; for d in 1..n { result *= (k+d-1); result /= d; }`
with `k` the partition size. -/
def range_size (n k : ℕ) : ℕ :=
  (List.range' 1 n).foldl (fun result d => result * (k + d - 1) / d) 1

/-- The trajectory of partitions visited when stepping with `next()` from
state `p` until `last()` holds (or the fuel runs out): the driver loop every
caller of the iterator writes. -/
def traj : ℕ → List ℕ → List (List ℕ)
  | 0, p => [p]
  | f + 1, p => if last_ p then [p] else p :: traj f (next_ p)

/-! ### Basic facts about the partition stepper -/

lemma lastElem_cons_cons (x y : ℕ) (t : List ℕ) :
    lastElem (x :: y :: t) = lastElem (y :: t) := rfl

lemma lastElem_le_sum : ∀ p : List ℕ, lastElem p ≤ p.sum
  | [] => le_refl 0
  | [x] => by simp [lastElem]
  | x :: y :: t => by
    have h := lastElem_le_sum (y :: t)
    simp only [lastElem_cons_cons, List.sum_cons] at *
    omega

lemma last_iff (p : List ℕ) : last_ p = true ↔ lastElem p = p.sum := by
  simp [last_]

/-- A state whose tail suffix is terminal: the whole state is terminal iff its
head is zero. -/
lemma last_cons_of_last_tail {y : ℕ} {rest : List ℕ} (x : ℕ)
    (h : last_ (y :: rest) = true) :
    (last_ (x :: y :: rest) = true ↔ x = 0) := by
  rw [last_iff] at h ⊢
  rw [lastElem_cons_cons, h]
  simp only [List.sum_cons] at *
  omega

/-- A state whose tail suffix is not terminal is itself not terminal. -/
lemma last_cons_of_not_last_tail {y : ℕ} {rest : List ℕ} (x : ℕ)
    (h : last_ (y :: rest) = false) :
    last_ (x :: y :: rest) = false := by
  have hle := lastElem_le_sum (y :: rest)
  have hne : lastElem (y :: rest) ≠ (y :: rest).sum := by
    intro he
    rw [(last_iff (y :: rest)).mpr he] at h
    simp at h
  cases hl : last_ (x :: y :: rest) with
  | false => rfl
  | true =>
    exfalso
    rw [last_iff, lastElem_cons_cons] at hl
    simp only [List.sum_cons] at hl hle hne
    omega

/-- Core of C10: for states of two or more parts, the decrement assertion
trips exactly on terminal states. -/
lemma next_asserts_iff_last :
    ∀ (rest : List ℕ) (x y : ℕ),
      (next_asserts (x :: y :: rest) = true ↔ last_ (x :: y :: rest) = true) := by
  intro rest
  induction rest with
  | nil =>
    intro x y
    have hy : last_ [y] = true := by simp [last_, lastElem]
    simp only [next_asserts, hy, if_true]
    rw [last_cons_of_last_tail x hy]
    simp
  | cons z r ih =>
    intro x y
    have e : next_asserts (x :: y :: z :: r) =
        if last_ (y :: z :: r) then x == 0 else next_asserts (y :: z :: r) := rfl
    cases h : last_ (y :: z :: r) with
    | true =>
      rw [e, h]
      rw [last_cons_of_last_tail x h]
      simp
    | false =>
      rw [e, h]
      rw [last_cons_of_not_last_tail x h]
      simp only [Bool.false_eq_true, if_false]
      rw [ih y z, h]
      simp

/-- C10: for every partition state with at least two parts, `next()` trips its
internal `assert(partition[0] != 0)` — checked before any element is
modified — exactly when `last()` is already true, and completes without any
assertion failure on every non-terminal state; for a single-part state
`next()` is a no-op and never asserts, even on the (always terminal) state. -/
theorem C10_next_assertion_characterization :
    (∀ p : List ℕ, 2 ≤ p.length → (next_asserts p = true ↔ last_ p = true)) ∧
    (∀ p : List ℕ, p.length = 1 → next_ p = p ∧ next_asserts p = false) := by
  constructor
  · intro p hp
    match p, hp with
    | x :: y :: rest, _ => exact next_asserts_iff_last rest x y
  · intro p hp
    match p, hp with
    | [x], _ => exact ⟨rfl, rfl⟩

/-- Witness for C10 at concrete states. -/
theorem C10_witness :
    (next_asserts [0, 0, 2] = true ↔ last_ [0, 0, 2] = true) ∧
    (next_ [5] = [5] ∧ next_asserts [5] = false) :=
  ⟨C10_next_assertion_characterization.1 [0, 0, 2] (by decide),
   C10_next_assertion_characterization.2 [5] (by decide)⟩

/-- C7: the iterator constructed with `n = 2`, `k = 3` starts at `{2,0,0}` and
`next()` visits exactly `{2,0,0}, {1,1,0}, {1,0,1}, {0,2,0}, {0,1,1}, {0,0,2}`
in that literal order, with `last()` true only at `{0,0,2}`. -/
theorem C7_enumeration_2_3 :
    ctorPartition 2 3 = [2, 0, 0] ∧
    traj 5 (ctorPartition 2 3) =
      [[2, 0, 0], [1, 1, 0], [1, 0, 1], [0, 2, 0], [0, 1, 1], [0, 0, 2]] ∧
    (∀ p ∈ traj 5 (ctorPartition 2 3), (last_ p = true ↔ p = [0, 0, 2])) := by
  decide

/-! ### Full enumeration of the iterator (towards C8) -/

/-- The final element of a list, with default (used for trajectories of
partitions). -/
def lastD {α : Type} (d : α) : List α → α
  | [] => d
  | [x] => x
  | _ :: y :: t => lastD d (y :: t)

lemma lastD_cons_cons {α : Type} (d x y : α) (t : List α) :
    lastD d (x :: y :: t) = lastD d (y :: t) := rfl

lemma lastD_cons_of_ne_nil {α : Type} (d x : α) {t : List α} (ht : t ≠ []) :
    lastD d (x :: t) = lastD d t := by
  cases t with
  | nil => exact absurd rfl ht
  | cons y r => rfl

lemma lastD_map {α β : Type} (f : α → β) (d : β) (d' : α) :
    ∀ l : List α, l ≠ [] → lastD d (l.map f) = f (lastD d' l)
  | [x], _ => rfl
  | x :: y :: t, _ => by
    rw [List.map_cons, List.map_cons, lastD_cons_cons, lastD_cons_cons,
      ← List.map_cons]
    exact lastD_map f d d' (y :: t) (by simp)

lemma lastD_append {α : Type} (d : α) (l : List α) {l' : List α} (h : l' ≠ []) :
    lastD d (l ++ l') = lastD d l' := by
  induction l with
  | nil => rfl
  | cons x t ih =>
    rw [List.cons_append, lastD_cons_of_ne_nil d x, ih]
    intro he
    rcases List.append_eq_nil.mp he with ⟨-, h2⟩
    exact h h2

lemma first_cons_eq (x : ℕ) (t : List ℕ) :
    first_ (x :: t) = (x + t.sum) :: List.replicate t.length 0 := by
  simp [first_, List.map_const']

lemma last_nil : last_ [] = true := rfl

lemma last_singleton (x : ℕ) : last_ [x] = true := by
  simp [last_, lastElem]

lemma next_cons_of_not_last {y : ℕ} {rest : List ℕ} (x : ℕ)
    (h : last_ (y :: rest) = false) :
    next_ (x :: y :: rest) = x :: next_ (y :: rest) := by
  simp only [next_, h, Bool.false_eq_true, if_false]

lemma next_cons_of_last {y : ℕ} {rest : List ℕ} (x : ℕ)
    (h : last_ (y :: rest) = true) :
    next_ (x :: y :: rest) = (x - 1) :: first_ ((y + 1) :: rest) := by
  simp only [next_, h, if_true]

lemma next_length : ∀ p : List ℕ, (next_ p).length = p.length
  | [] => rfl
  | [x] => rfl
  | x :: y :: rest => by
    cases h : last_ (y :: rest) with
    | true =>
      rw [next_cons_of_last x h, first_cons_eq]
      simp
    | false =>
      rw [next_cons_of_not_last x h]
      have := next_length (y :: rest)
      simp_all

lemma next_sum : ∀ p : List ℕ, last_ p = false → (next_ p).sum = p.sum
  | [], h => by rw [last_nil] at h; cases h
  | [x], h => by rw [last_singleton] at h; cases h
  | x :: y :: rest, h => by
    cases hl : last_ (y :: rest) with
    | true =>
      have hx : x ≠ 0 := by
        intro h0
        subst h0
        rw [(last_cons_of_last_tail 0 hl).mpr rfl] at h
        cases h
      rw [next_cons_of_last x hl, first_cons_eq]
      simp only [List.sum_cons, List.sum_replicate, smul_zero]
      omega
    | false =>
      rw [next_cons_of_not_last x hl]
      have := next_sum (y :: rest) hl
      simp_all

lemma traj_of_last {p : List ℕ} (f : ℕ) (h : last_ p = true) :
    traj f p = [p] := by
  cases f with
  | zero => rfl
  | succ g => simp [traj, h]

lemma traj_ne_nil : ∀ (f : ℕ) (p : List ℕ), traj f p ≠ []
  | 0, p => by simp [traj]
  | f + 1, p => by
    cases h : last_ p <;> simp [traj, h]

lemma traj_length_pos (f : ℕ) (p : List ℕ) : 1 ≤ (traj f p).length :=
  List.length_pos.mpr (traj_ne_nil f p)

lemma traj_min :
    ∀ (g : ℕ) (p : List ℕ), last_ (lastD [] (traj g p)) = true →
      traj ((traj g p).length - 1) p = traj g p
  | 0, p, _ => rfl
  | g + 1, p, h => by
    cases hl : last_ p with
    | true =>
      rw [traj_of_last (g + 1) hl]
      exact traj_of_last _ hl
    | false =>
      have e : traj (g + 1) p = p :: traj g (next_ p) := by
        simp [traj, hl]
      rw [e] at h ⊢
      rw [lastD_cons_of_ne_nil [] p (traj_ne_nil g (next_ p))] at h
      have hlen := traj_length_pos g (next_ p)
      have e2 : (p :: traj g (next_ p)).length - 1 =
          ((traj g (next_ p)).length - 1) + 1 := by
        simp only [List.length_cons]
        omega
      rw [e2]
      have e3 : traj (((traj g (next_ p)).length - 1) + 1) p =
          p :: traj ((traj g (next_ p)).length - 1) (next_ p) := by
        simp [traj, hl]
      rw [e3, traj_min g (next_ p) h]

lemma traj_stable :
    ∀ (g : ℕ) (p : List ℕ), last_ (lastD [] (traj g p)) = true →
      ∀ f, g ≤ f → traj f p = traj g p
  | 0, p, h, f, _ => by
    have : last_ p = true := h
    rw [traj_of_last f this]
    rfl
  | g + 1, p, h, f, hf => by
    cases hl : last_ p with
    | true => rw [traj_of_last (g + 1) hl, traj_of_last f hl]
    | false =>
      have e : traj (g + 1) p = p :: traj g (next_ p) := by
        simp [traj, hl]
      rw [e] at h ⊢
      rw [lastD_cons_of_ne_nil [] p (traj_ne_nil g (next_ p))] at h
      obtain ⟨f', rfl⟩ : ∃ f', f = f' + 1 := ⟨f - 1, by omega⟩
      have e2 : traj (f' + 1) p = p :: traj f' (next_ p) := by
        simp [traj, hl]
      rw [e2, traj_stable g (next_ p) h f' (by omega)]

lemma last_cons_pos {y : ℕ} {rest : List ℕ} (hd : ℕ)
    (h : last_ (y :: rest) = true) :
    last_ ((hd + 1) :: y :: rest) = false := by
  cases hl : last_ ((hd + 1) :: y :: rest) with
  | false => rfl
  | true =>
    have := (last_cons_of_last_tail (hd + 1) h).mp hl
    omega

lemma last_cons_zero : ∀ (q : List ℕ), last_ q = true → last_ (0 :: q) = true
  | [], _ => rfl
  | _ :: _, h => (last_cons_of_last_tail 0 h).mpr rfl

lemma exists_cons_cons {α : Type} (l : List α) (h : 2 ≤ l.length) :
    ∃ a b t, l = a :: b :: t := by
  match l, h with
  | a :: b :: t, _ => exact ⟨a, b, t, rfl⟩

/-- One step of `next()` on a state whose tail suffix is terminal and whose
head is positive: decrement the head and reset the tail with one more unit. -/
lemma traj_step_pos {y : ℕ} {rest : List ℕ} (hd f : ℕ)
    (h : last_ (y :: rest) = true) :
    traj (1 + f) ((hd + 1) :: y :: rest) =
      ((hd + 1) :: y :: rest) ::
        traj f (hd :: ((y :: rest).sum + 1) :: List.replicate rest.length 0) := by
  have hlf := last_cons_pos hd h
  have e : traj (1 + f) ((hd + 1) :: y :: rest) =
      ((hd + 1) :: y :: rest) :: traj f (next_ ((hd + 1) :: y :: rest)) := by
    rw [show 1 + f = f + 1 by omega]
    simp [traj, hlf]
  rw [e, next_cons_of_last _ h, first_cons_eq]
  have e1 : hd + 1 - 1 = hd := by omega
  have e2 : y + 1 + rest.sum = (y :: rest).sum + 1 := by
    simp [List.sum_cons]; omega
  rw [e1, e2]

/-- Plugging a positive head on top of a partition suffix: the combined state
steps through every state of the suffix trajectory, then decrements the
head. -/
lemma traj_lift_pos :
    ∀ (g : ℕ) (y : ℕ) (rest : List ℕ) (hd : ℕ),
      last_ (lastD [] (traj g (y :: rest))) = true →
      ∀ f : ℕ,
        traj ((traj g (y :: rest)).length + f) ((hd + 1) :: y :: rest) =
          (traj g (y :: rest)).map ((hd + 1) :: ·) ++
            traj f (hd :: ((y :: rest).sum + 1) :: List.replicate rest.length 0)
  | 0, y, rest, hd, hlast, f => by
    have h : last_ (y :: rest) = true := hlast
    rw [show (traj 0 (y :: rest)).length = 1 from rfl]
    rw [traj_step_pos hd f h]
    rfl
  | g + 1, y, rest, hd, hlast, f => by
    cases hl : last_ (y :: rest) with
    | true =>
      rw [traj_of_last (g + 1) hl] at hlast ⊢
      rw [show ([y :: rest] : List (List ℕ)).length = 1 from rfl]
      rw [traj_step_pos hd f hl]
      rfl
    | false =>
      have e : traj (g + 1) (y :: rest) = (y :: rest) :: traj g (next_ (y :: rest)) := by
        simp [traj, hl]
      have hlen2 : 2 ≤ (next_ (y :: rest)).length := by
        rw [next_length]
        cases rest with
        | nil => rw [last_singleton] at hl; cases hl
        | cons z r => simp
      obtain ⟨a, b, t, hab⟩ := exists_cons_cons _ hlen2
      have hsum : (a :: b :: t).sum = (y :: rest).sum := by
        rw [← hab]; exact next_sum _ hl
      have hlength : (b :: t).length = rest.length := by
        have h2 := next_length (y :: rest)
        rw [hab] at h2
        simpa using h2
      rw [e] at hlast ⊢
      rw [lastD_cons_of_ne_nil [] _ (traj_ne_nil g _)] at hlast
      rw [hab] at hlast
      have hlf : last_ ((hd + 1) :: y :: rest) = false :=
        last_cons_of_not_last_tail _ hl
      have estep : traj (((y :: rest) :: traj g (next_ (y :: rest))).length + f)
            ((hd + 1) :: y :: rest) =
          ((hd + 1) :: y :: rest) ::
            traj ((traj g (next_ (y :: rest))).length + f)
              ((hd + 1) :: next_ (y :: rest)) := by
        rw [List.length_cons]
        rw [show (traj g (next_ (y :: rest))).length + 1 + f =
            ((traj g (next_ (y :: rest))).length + f) + 1 by omega]
        simp only [traj, hlf, Bool.false_eq_true, if_false]
        rw [next_cons_of_not_last _ hl]
      rw [estep, hab]
      rw [traj_lift_pos g a (b :: t) hd hlast f]
      rw [hsum, hlength, ← hab]
      rfl

/-- Plugging a zero head on top of a partition suffix: the combined state
steps through the suffix trajectory and then stops (the combined state is
terminal exactly when the suffix is). -/
lemma traj_lift_zero :
    ∀ (g : ℕ) (y : ℕ) (rest : List ℕ),
      last_ (lastD [] (traj g (y :: rest))) = true →
      ∀ f : ℕ,
        traj ((traj g (y :: rest)).length - 1 + f) (0 :: y :: rest) =
          (traj g (y :: rest)).map (0 :: ·)
  | 0, y, rest, hlast, f => by
    have h : last_ (y :: rest) = true := hlast
    rw [show (traj 0 (y :: rest)).length = 1 from rfl]
    rw [show 1 - 1 + f = f by omega]
    rw [traj_of_last f (last_cons_zero _ h)]
    rfl
  | g + 1, y, rest, hlast, f => by
    cases hl : last_ (y :: rest) with
    | true =>
      rw [traj_of_last (g + 1) hl] at hlast ⊢
      rw [show ([y :: rest] : List (List ℕ)).length = 1 from rfl]
      rw [show 1 - 1 + f = f by omega]
      rw [traj_of_last f (last_cons_zero _ hl)]
      rfl
    | false =>
      have e : traj (g + 1) (y :: rest) = (y :: rest) :: traj g (next_ (y :: rest)) := by
        simp [traj, hl]
      have hlen2 : 2 ≤ (next_ (y :: rest)).length := by
        rw [next_length]
        cases rest with
        | nil => rw [last_singleton] at hl; cases hl
        | cons z r => simp
      obtain ⟨a, b, t, hab⟩ := exists_cons_cons _ hlen2
      rw [e] at hlast ⊢
      rw [lastD_cons_of_ne_nil [] _ (traj_ne_nil g _)] at hlast
      rw [hab] at hlast
      have hlf : last_ (0 :: y :: rest) = false :=
        last_cons_of_not_last_tail _ hl
      have hlen := traj_length_pos g (next_ (y :: rest))
      have estep : traj (((y :: rest) :: traj g (next_ (y :: rest))).length - 1 + f)
            (0 :: y :: rest) =
          (0 :: y :: rest) ::
            traj ((traj g (next_ (y :: rest))).length - 1 + f)
              (0 :: next_ (y :: rest)) := by
        rw [List.length_cons]
        rw [show (traj g (next_ (y :: rest))).length + 1 - 1 + f =
            ((traj g (next_ (y :: rest))).length - 1 + f) + 1 by omega]
        simp only [traj, hlf, Bool.false_eq_true, if_false]
        rw [next_cons_of_not_last _ hl]
      rw [estep, hab]
      rw [traj_lift_zero g a (b :: t) hlast f]
      rw [← hab]
      rfl

/-- The ordered partitions of `n` into `k + 1` non-negative parts, listed in
the (reverse-lexicographic) order in which the iterator visits them. -/
def parts : ℕ → ℕ → List (List ℕ)
  | 0, n => [[n]]
  | k + 1, n => (List.range (n + 1)).flatMap fun j => (parts k j).map ((n - j) :: ·)

lemma parts_ne_nil : ∀ k n, parts k n ≠ []
  | 0, n => by simp [parts]
  | k + 1, n => by
    have h1 : parts k 0 ≠ [] := parts_ne_nil k 0
    rw [parts, List.range_succ_eq_map]
    simp only [List.flatMap_cons]
    intro he
    rcases List.append_eq_nil.mp he with ⟨h2, -⟩
    exact h1 (List.map_eq_nil_iff.mp h2)

lemma parts_sum : ∀ k n p, p ∈ parts k n → p.sum = n
  | 0, n, p, hp => by
    simp only [parts, List.mem_singleton] at hp
    subst hp
    simp
  | k + 1, n, p, hp => by
    rw [parts] at hp
    simp only [List.mem_flatMap, List.mem_map, List.mem_range] at hp
    obtain ⟨j, hj, q, hq, rfl⟩ := hp
    have hs := parts_sum k j q hq
    simp only [List.sum_cons, hs]
    omega

lemma blocks_ne_nil (k : ℕ) (c : ℕ → ℕ) (m h : ℕ) :
    (List.range' m (h + 1)).flatMap (fun j => (parts k j).map (c j :: ·)) ≠ [] := by
  rw [List.range'_succ]
  simp only [List.flatMap_cons]
  intro he
  rcases List.append_eq_nil.mp he with ⟨h1, -⟩
  exact parts_ne_nil k m (List.map_eq_nil_iff.mp h1)

/-- Descending the head: from state `{h, m, 0, ..., 0}` the iterator visits,
for each tail charge `j` from `m` up to `m + h`, every partition of `j` into
`k + 1` parts prefixed with head `h + m - j`. -/
lemma parts_desc (k : ℕ)
    (ihk : ∀ m, ∃ g, traj g (m :: List.replicate k 0) = parts k m ∧
        last_ (lastD [] (parts k m)) = true) :
    ∀ (h m : ℕ), ∃ g, traj g (h :: m :: List.replicate k 0) =
        (List.range' m (h + 1)).flatMap
          (fun j => (parts k j).map ((h + m - j) :: ·)) ∧
      last_ (lastD [] ((List.range' m (h + 1)).flatMap
          (fun j => (parts k j).map ((h + m - j) :: ·)))) = true := by
  intro h
  induction h with
  | zero =>
    intro m
    obtain ⟨g, hg, hlast⟩ := ihk m
    have hB : (List.range' m (0 + 1)).flatMap
        (fun j => (parts k j).map ((0 + m - j) :: ·)) = (parts k m).map (0 :: ·) := by
      rw [List.range'_succ]
      simp only [List.range'_zero, List.flatMap_cons, List.flatMap_nil, List.append_nil]
      rw [show 0 + m - m = 0 by omega]
    rw [hB]
    refine ⟨(traj g (m :: List.replicate k 0)).length - 1 + 0, ?_, ?_⟩
    · rw [traj_lift_zero g m (List.replicate k 0) (by rw [hg]; exact hlast) 0, hg]
    · rw [lastD_map (0 :: ·) [] [] (parts k m) (parts_ne_nil k m)]
      exact last_cons_zero _ hlast
  | succ h ih =>
    intro m
    obtain ⟨g, hg, hlast⟩ := ihk m
    obtain ⟨g', hg', hlast'⟩ := ih (m + 1)
    have hcoef : (fun j => (parts k j).map ((h + 1 + m - j) :: ·)) =
        (fun j => (parts k j).map ((h + (m + 1) - j) :: ·)) := by
      funext j
      rw [show h + 1 + m = h + (m + 1) by omega]
    have hsplit : (List.range' m (h + 1 + 1)).flatMap
        (fun j => (parts k j).map ((h + 1 + m - j) :: ·)) =
        (parts k m).map ((h + 1) :: ·) ++
        (List.range' (m + 1) (h + 1)).flatMap
          (fun j => (parts k j).map ((h + (m + 1) - j) :: ·)) := by
      rw [List.range'_succ, List.flatMap_cons]
      rw [show h + 1 + m - m = h + 1 by omega]
      rw [hcoef]
    rw [hsplit]
    have hstate : (h :: ((m :: List.replicate k 0).sum + 1) ::
        List.replicate (List.replicate k 0).length 0) =
        (h :: (m + 1) :: List.replicate k 0) := by
      simp [List.sum_replicate]
    refine ⟨(traj g (m :: List.replicate k 0)).length + g', ?_, ?_⟩
    · rw [traj_lift_pos g m (List.replicate k 0) h (by rw [hg]; exact hlast) g']
      rw [hstate, hg', hg]
    · rw [lastD_append [] _ (blocks_ne_nil k _ (m + 1) h)]
      exact hlast'

/-- The iterator started on the first configuration of `n` into `k + 1` parts
enumerates exactly `parts k n` and ends on a terminal state. -/
lemma parts_enum : ∀ (k n : ℕ), ∃ g : ℕ,
    traj g (n :: List.replicate k 0) = parts k n ∧
    last_ (lastD [] (parts k n)) = true
  | 0, n => ⟨0, rfl, last_singleton n⟩
  | k + 1, n => by
    obtain ⟨g, h1, h2⟩ := parts_desc k (fun m => parts_enum k m) n 0
    have hB : (List.range' 0 (n + 1)).flatMap
        (fun j => (parts k j).map ((n + 0 - j) :: ·)) = parts (k + 1) n := by
      rw [parts, List.range_eq_range']
      congr 1
    rw [hB] at h1 h2
    exact ⟨g, h1, h2⟩

lemma sum_range_choose (k : ℕ) :
    ∀ n, ((List.range (n + 1)).map fun j => (k + j).choose j).sum = (k + 1 + n).choose n
  | 0 => by
    rw [show List.range 1 = [0] from rfl]
    simp
  | n + 1 => by
    rw [List.range_succ, List.map_append, List.sum_append, sum_range_choose k n]
    simp only [List.map_cons, List.map_nil, List.sum_cons, List.sum_nil, Nat.add_zero]
    rw [show k + 1 + n = k + n + 1 by omega, show k + (n + 1) = k + n + 1 by omega,
      show k + 1 + (n + 1) = k + n + 1 + 1 by omega]
    rw [Nat.choose_succ_succ' (k + n + 1) n]

lemma parts_length : ∀ k n, (parts k n).length = (k + n).choose n
  | 0, n => by simp [parts]
  | k + 1, n => by
    rw [parts, List.length_flatMap]
    have hm : List.map (List.length ∘ fun j => (parts k j).map ((n - j) :: ·))
        (List.range (n + 1)) = (List.range (n + 1)).map fun j => (k + j).choose j := by
      apply List.map_congr_left
      intro j hj
      simp only [Function.comp_apply, List.length_map]
      exact parts_length k j
    rw [hm, sum_range_choose k n]

lemma parts_nodup : ∀ k n, (parts k n).Nodup
  | 0, n => by simp [parts]
  | k + 1, n => by
    rw [parts, List.nodup_flatMap]
    constructor
    · intro j hj
      exact (parts_nodup k j).map List.cons_injective
    · apply List.Pairwise.imp ?_ (List.nodup_range (n + 1))
      intro j j' hne
      intro p hp hp'
      simp only [Function.onFun, List.mem_map] at hp hp'
      obtain ⟨q, hq, hpe⟩ := hp
      obtain ⟨q', hq', hpe'⟩ := hp'
      rw [← hpe] at hpe'
      have e2 : q' = q := by injection hpe'
      have hq1 := parts_sum k j q hq
      have hq2 := parts_sum k j' q' hq'
      rw [e2] at hq2
      exact hne (by omega)

lemma range_size_eq (k : ℕ) (hk : 1 ≤ k) :
    ∀ n, range_size n k = (k + n - 1).choose n
  | 0 => by simp [range_size]
  | n + 1 => by
    have ih := range_size_eq k hk n
    rw [range_size] at ih ⊢
    rw [List.range'_concat, List.foldl_append, ih]
    simp only [List.foldl_cons, List.foldl_nil]
    rw [show 1 + 1 * n = n + 1 by omega]
    rw [show k + (n + 1) - 1 = k + n by omega]
    have hs : k + n - 1 + 1 = k + n := by omega
    have h2 := Nat.succ_mul_choose_eq (k + n - 1) n
    simp only [Nat.succ_eq_add_one, hs] at h2
    rw [mul_comm ((k + n - 1).choose n) (k + n), h2,
      Nat.mul_div_cancel _ (show 0 < n + 1 by omega)]

/-- C8: for every `n ≥ 0` and `k ≥ 1`, `range_size()` equals the binomial
coefficient `C(k+n-1, n)` computed exactly, and stepping with `next()` from
the constructed state `{n,0,...,0}` visits exactly that many distinct
partitions before `last()` first holds (the trajectory has that length, has
no duplicates, and its final state is terminal). -/
theorem C8_range_size_and_count (n k : ℕ) (hk : 1 ≤ k) :
    range_size n k = (k + n - 1).choose n ∧
    (traj (range_size n k) (ctorPartition n k)).length = range_size n k ∧
    (traj (range_size n k) (ctorPartition n k)).Nodup ∧
    last_ (lastD [] (traj (range_size n k) (ctorPartition n k))) = true := by
  obtain ⟨k', rfl⟩ : ∃ k', k = k' + 1 := ⟨k - 1, by omega⟩
  have hctor : ctorPartition n (k' + 1) = n :: List.replicate k' 0 := by
    simp [ctorPartition, List.replicate_succ]
  obtain ⟨g, hg, hlast⟩ := parts_enum k' n
  have hmin : traj ((parts k' n).length - 1) (n :: List.replicate k' 0) = parts k' n := by
    have h := traj_min g (n :: List.replicate k' 0) (by rw [hg]; exact hlast)
    rw [hg] at h
    exact h
  have hstable : ∀ f, (parts k' n).length - 1 ≤ f →
      traj f (n :: List.replicate k' 0) = parts k' n := by
    intro f hf
    have h := traj_stable ((parts k' n).length - 1) (n :: List.replicate k' 0)
      (by rw [hmin]; exact hlast) f hf
    rw [hmin] at h
    exact h
  have hrs : range_size n (k' + 1) = (parts k' n).length := by
    rw [range_size_eq (k' + 1) (by omega) n, parts_length]
    congr 1
    omega
  have htraj : traj (range_size n (k' + 1)) (ctorPartition n (k' + 1)) = parts k' n := by
    rw [hctor]
    apply hstable
    omega
  refine ⟨range_size_eq (k' + 1) (by omega) n, ?_, ?_, ?_⟩
  · rw [htraj, hrs]
  · rw [htraj]; exact parts_nodup k' n
  · rw [htraj]; exact hlast

/-- Witness for C8 at `n = 2`, `k = 3`. -/
theorem C8_witness :
    1 ≤ 3 ∧
    (range_size 2 3 = (3 + 2 - 1).choose 2 ∧
     (traj (range_size 2 3) (ctorPartition 2 3)).length = range_size 2 3 ∧
     (traj (range_size 2 3) (ctorPartition 2 3)).Nodup ∧
     last_ (lastD [] (traj (range_size 2 3) (ctorPartition 2 3))) = true) :=
  ⟨by decide, C8_range_size_and_count 2 3 (by decide)⟩

/-! ## Embedding of `deriv_map.h` -/

/-- Modelled from the spec: `libint2/braket.h` is not among the provided
sources; the spec describes an enumerated set of bracket shapes of which the
4-center `xx_xx` and the 3-center `xs_xx` are the ones supported by
`DerivMapGenerator`, while `xx_sx` and `xs_xs` stand for the remaining
members of the enumeration (unsupported by this class). -/
inductive BraKet
  | xx_xx
  | xs_xx
  | xx_sx
  | xs_xs
  deriving DecidableEq

/-- Recursion core of `cwr_recursion(inp, out, result, k, i, n)`: the first
argument of the recursion is the number `k - out.size()` of elements still to
be pushed — the C++ reaches its base case exactly when `out.size() == k` and
every recursive call pushes one element, so this count is the structural
measure of the recursion.  The loop `for (j = i; j < n; j++)` becomes
`List.range' i (n - i)`, and `result.push_back`/backtracking becomes the
returned list of completed tuples. -/
def cwr_aux (inp : List ℕ) : ℕ → List ℕ → ℕ → ℕ → List (List ℕ)
  | 0, out, _, _ => [out]
  | fuel + 1, out, i, n =>
    (List.range' i (n - i)).flatMap fun j => cwr_aux inp fuel (out ++ [inp.getD j 0]) j n

/-- Embeds `cwr_recursion`; the `result` accumulator becomes the return
value. -/
def cwr_recursion (inp : List ℕ) (out : List ℕ) (k i n : ℕ) : List (List ℕ) :=
  cwr_aux inp (k - out.length) out i n

/-- Embeds `generate_multi_index_lookup(nparams, deriv_order)`: `inp` is
`0, 1, ..., nparams-1` and the recursion starts from the empty tuple. -/
def generate_multi_index_lookup (nparams deriv_order : ℕ) : List (List ℕ) :=
  cwr_recursion (List.range nparams) [] deriv_order 0 nparams

/-- The pair `(val, factorial)` accumulated by the loop of
`how_many_derivs(k, n)`: `val *= (3*k + i); factorial *= i + 1;`. -/
def hmd_pair (k n : ℕ) : ℕ × ℕ :=
  (List.range n).foldl (fun vf i => (vf.1 * (3 * k + i), vf.2 * (i + 1))) (1, 1)

/-- Embeds `how_many_derivs(k, n)` (`k` centers, order `n`): the product of
`3k, 3k+1, ..., 3k+n-1` divided once, at the end, by `n!`. -/
def how_many_derivs (k n : ℕ) : ℕ := (hmd_pair k n).1 / (hmd_pair k n).2

/-- `std::vector<int>` `operator<`: lexicographic comparison, the order used
by `std::lower_bound` over the canonical tuple list. -/
def lexLt : List ℕ → List ℕ → Bool
  | _, [] => false
  | [], _ :: _ => true
  | a :: as, b :: bs => if a < b then true else if b < a then false else lexLt as bs

/-- `std::lower_bound(lookup.begin(), lookup.end(), t) - lookup.begin()`: on a
`<`-sorted range, the first position whose element is not less than `t`
(`lookup.size()` when every element is less, i.e. the iterator equals
`end()`). -/
def lower_bound (L : List (List ℕ)) (t : List ℕ) : ℕ :=
  L.findIdx fun x => ! lexLt x t

/-- Embeds lines 239–241 of `deriv_map.h`: `int new_idx = 0;` then
`auto it = lower_bound(lookup.begin(), lookup.end(), permuted_indices);` and
`if (it != lookup.end()) new_idx = it - lookup.begin();` — when the search
falls off the end, the initial `0` is kept. -/
def new_idx (L : List (List ℕ)) (t : List ℕ) : ℕ :=
  if lower_bound L t ≠ L.length then lower_bound L t else 0

/-- `swap_braket_perm` of the shape switch (the default arm of the switch is
`assert(false && ...)`; these accessors return junk `[]` there and
`generate_deriv_index_map` returns `none`). -/
def swap_braket_perm : BraKet → List ℕ
  | BraKet.xx_xx => [6, 7, 8, 9, 10, 11, 0, 1, 2, 3, 4, 5]
  | BraKet.xs_xx => [0, 1, 2, 3, 4, 5, 6, 7, 8]
  | _ => []

/-- `swap_bra_perm` of the shape switch. -/
def swap_bra_perm : BraKet → List ℕ
  | BraKet.xx_xx => [3, 4, 5, 0, 1, 2, 6, 7, 8, 9, 10, 11]
  | BraKet.xs_xx => [0, 1, 2, 3, 4, 5, 6, 7, 8]
  | _ => []

/-- `swap_ket_perm` of the shape switch. -/
def swap_ket_perm : BraKet → List ℕ
  | BraKet.xx_xx => [0, 1, 2, 3, 4, 5, 9, 10, 11, 6, 7, 8]
  | BraKet.xs_xx => [0, 1, 2, 6, 7, 8, 3, 4, 5]
  | _ => []

/-- `swap_combos` of the shape switch: the symmetry on/off combinations
evaluated by the build loop. -/
def swap_combos : BraKet → List (ℕ × ℕ × ℕ)
  | BraKet.xx_xx =>
    [(0, 0, 0), (0, 0, 1), (0, 1, 0), (0, 1, 1), (1, 0, 0), (1, 0, 1), (1, 1, 0), (1, 1, 1)]
  | BraKet.xs_xx => [(0, 0, 0), (0, 0, 1)]
  | _ => []

/-- `ncenters` of the shape switch. -/
def ncenters : BraKet → ℕ
  | BraKet.xx_xx => 4
  | BraKet.xs_xx => 3
  | _ => 0

/-- Lines 226–231: apply the three base permutations to a single coordinate
index, braket-swap first, then bra-swap, then ket-swap, each gated by its
flag being `1`. -/
def permuteIdx (bk : BraKet) (sbk sb sk : ℕ) (idx : ℕ) : ℕ :=
  let idx1 := if sbk = 1 then (swap_braket_perm bk).getD idx 0 else idx
  let idx2 := if sb = 1 then (swap_bra_perm bk).getD idx1 0 else idx1
  if sk = 1 then (swap_ket_perm bk).getD idx2 0 else idx2

/-- The value stored by one iteration of the inner loop (lines 223–244) for
tuple index `i` under flags `(sbk, sb, sk)`: permute the `i`-th canonical
tuple coordinate-wise, re-sort ascending (`std::sort` is specified by its
postcondition — the sorted permutation of its input, unique over `ℕ`;
insertion sort realizes it), and recover the flattened index by the binary
search. -/
def entryVal (bk : BraKet) (lookup : List (List ℕ)) (sbk sb sk i : ℕ) : ℕ :=
  new_idx lookup (((lookup.getD i []).map (permuteIdx bk sbk sb sk)).insertionSort (· ≤ ·))

/-- The loop nest of lines 217–246 writing into the zero-initialized
`Tensor<int> mapDerivIndex{2,2,2,nderivs}` (a "2 x 2 x 2 x nderivs array of
zeros" per the comment at lines 204–209; `Tensor` itself lives in
`libint2/tensor.h`, outside the provided sources).  The table is embedded as
a function of the four subscripts, each store as a pointwise update; the
source locals are `nderivs = how_many_derivs(ncenters, deriv_order)`,
`nparams = ncenters * 3` and
`lookup = generate_multi_index_lookup(nparams, deriv_order)`. -/
def buildTable (deriv_order : ℕ) (bk : BraKet) : ℕ → ℕ → ℕ → ℕ → ℕ :=
  (swap_combos bk).foldl
    (fun tbl combo =>
      (List.range (how_many_derivs (ncenters bk) deriv_order)).foldl
        (fun tbl i => fun a b c j =>
          if a = combo.1 ∧ b = combo.2.1 ∧ c = combo.2.2 ∧ j = i
          then entryVal bk (generate_multi_index_lookup (ncenters bk * 3) deriv_order)
            combo.1 combo.2.1 combo.2.2 i
          else tbl a b c j)
        tbl)
    (fun _ _ _ _ => 0)

/-- Embeds `generate_deriv_index_map(deriv_order, braket_)`: the default arm
of the shape switch is `assert(false && "...not implemented.")`, embedded as
`none`. -/
def generate_deriv_index_map (deriv_order : ℕ) (bk : BraKet) :
    Option (ℕ → ℕ → ℕ → ℕ → ℕ) :=
  match bk with
  | BraKet.xx_xx => some (buildTable deriv_order BraKet.xx_xx)
  | BraKet.xs_xx => some (buildTable deriv_order BraKet.xs_xx)
  | _ => none

/-- Observable behavior of a call to `DerivMapGenerator::instance`. -/
inductive LookupOutcome
  | found
  | assertionFailure
  | outOfBoundsAccess
  deriving DecidableEq

/-- Embeds `DerivMapGenerator::instance(deriv_order_, braket_)` after
`initialize()` has filled the static caches: the vectors returned by
`braket_xx_xx()`/`braket_xs_xx()` then hold `LIBINT2_MAX_DERIV_ORDER` tables
(`nmax` here, kept as a parameter since that macro is configuration).  The
two supported arms return `vector[deriv_order_ - 1]` through the unchecked
`std::vector::operator[]` — an out-of-bounds access (undefined behavior, not
a diagnosed failure) whenever `deriv_order_ - 1` lies outside `[0, nmax)` —
and the default arm is `assert(false && "...not yet supported.")`.
`deriv_order_` is a C++ `int`, hence `ℤ`. -/
def instanceOutcome (nmax : ℕ) (deriv_order : ℤ) (bk : BraKet) : LookupOutcome :=
  match bk with
  | BraKet.xx_xx =>
    if 0 ≤ deriv_order - 1 ∧ deriv_order - 1 < (nmax : ℤ) then LookupOutcome.found
    else LookupOutcome.outOfBoundsAccess
  | BraKet.xs_xx =>
    if 0 ≤ deriv_order - 1 ∧ deriv_order - 1 < (nmax : ℤ) then LookupOutcome.found
    else LookupOutcome.outOfBoundsAccess
  | _ => LookupOutcome.assertionFailure

/-! ### The canonical tuple list -/

lemma flatMap_congr {α β : Type} {l : List α} {f g : α → List β}
    (h : ∀ x ∈ l, f x = g x) : l.flatMap f = l.flatMap g := by
  induction l with
  | nil => rfl
  | cons x t ih =>
    rw [List.flatMap_cons, List.flatMap_cons, h x (by simp),
      ih (fun y hy => h y (by simp [hy]))]

/-- All non-decreasing tuples of length `d` over `[lo, n)`, in ascending
lexicographic order: the proof-side characterization of what
`cwr_recursion` produces. -/
def ndTuples : ℕ → ℕ → ℕ → List (List ℕ)
  | 0, _, _ => [[]]
  | d + 1, lo, n =>
    (List.range' lo (n - lo)).flatMap fun j => (ndTuples d j n).map (j :: ·)

lemma cwr_aux_eq (inp : List ℕ) (n : ℕ) (hinp : ∀ j, j < n → inp.getD j 0 = j) :
    ∀ (fuel : ℕ) (out : List ℕ) (i : ℕ),
      cwr_aux inp fuel out i n = (ndTuples fuel i n).map (out ++ ·)
  | 0, out, i => by simp [cwr_aux, ndTuples]
  | fuel + 1, out, i => by
    rw [cwr_aux, ndTuples, List.map_flatMap]
    apply flatMap_congr
    intro j hj
    have hjn : j < n := by
      have h2 := List.mem_range'_1.mp hj
      omega
    rw [cwr_aux_eq inp n hinp fuel (out ++ [inp.getD j 0]) j, hinp j hjn,
      List.map_map]
    apply List.map_congr_left
    intro t ht
    simp

lemma gmil_eq (nparams d : ℕ) :
    generate_multi_index_lookup nparams d = ndTuples d 0 nparams := by
  rw [generate_multi_index_lookup, cwr_recursion]
  have hinp : ∀ j, j < nparams → (List.range nparams).getD j 0 = j := by
    intro j hj
    rw [List.getD_eq_getElem _ _ (by simpa using hj)]
    simp
  rw [show d - ([] : List ℕ).length = d by simp]
  rw [cwr_aux_eq (List.range nparams) nparams hinp d [] 0]
  simp

lemma ndTuples_mem : ∀ (d lo n : ℕ) (t : List ℕ),
    t ∈ ndTuples d lo n ↔
      t.length = d ∧ List.Pairwise (· ≤ ·) t ∧ ∀ x ∈ t, lo ≤ x ∧ x < n
  | 0, lo, n, t => by
    simp only [ndTuples, List.mem_singleton]
    constructor
    · rintro rfl; simp
    · rintro ⟨hl, -, -⟩
      exact List.length_eq_zero.mp hl
  | d + 1, lo, n, t => by
    simp only [ndTuples, List.mem_flatMap, List.mem_map, List.mem_range'_1]
    constructor
    · rintro ⟨j, ⟨hjlo, hjn⟩, s, hs, rfl⟩
      obtain ⟨hl, hpw, hb⟩ := (ndTuples_mem d j n s).mp hs
      refine ⟨by simp [hl], ?_, ?_⟩
      · rw [List.pairwise_cons]
        exact ⟨fun a ha => (hb a ha).1, hpw⟩
      · intro x hx
        rcases List.mem_cons.mp hx with rfl | hx'
        · exact ⟨hjlo, by omega⟩
        · have h2 := hb x hx'
          omega
    · intro h
      obtain ⟨hl, hpw, hb⟩ := h
      match t, hl with
      | x :: s, hl =>
        have hx := hb x (by simp)
        refine ⟨x, ⟨hx.1, by omega⟩, s, ?_, rfl⟩
        apply (ndTuples_mem d x n s).mpr
        obtain ⟨hhead, htail⟩ := List.pairwise_cons.mp hpw
        refine ⟨by simpa using hl, htail, ?_⟩
        intro y hy
        exact ⟨hhead y hy, (hb y (by simp [hy])).2⟩

lemma lexLt_irrefl : ∀ t : List ℕ, lexLt t t = false
  | [] => rfl
  | a :: as => by
    rw [show lexLt (a :: as) (a :: as) =
      (if a < a then true else if a < a then false else lexLt as as) from rfl]
    simp [lexLt_irrefl as]

lemma lexLt_cons_same (a : ℕ) (s s' : List ℕ) :
    lexLt (a :: s) (a :: s') = lexLt s s' := by
  rw [show lexLt (a :: s) (a :: s') =
    (if a < a then true else if a < a then false else lexLt s s') from rfl]
  simp

lemma lexLt_cons_lt {a b : ℕ} (h : a < b) (s s' : List ℕ) :
    lexLt (a :: s) (b :: s') = true := by
  rw [show lexLt (a :: s) (b :: s') =
    (if a < b then true else if b < a then false else lexLt s s') from rfl]
  simp [h]

lemma pairwise_flatMap {α β : Type} (R : β → β → Prop) (f : α → List β) :
    ∀ (l : List α), (∀ x ∈ l, (f x).Pairwise R) →
      l.Pairwise (fun x y => ∀ u ∈ f x, ∀ v ∈ f y, R u v) →
      (l.flatMap f).Pairwise R
  | [], _, _ => List.Pairwise.nil
  | x :: t, h1, h2 => by
    rw [List.flatMap_cons, List.pairwise_append]
    obtain ⟨hx, h2'⟩ := List.pairwise_cons.mp h2
    refine ⟨h1 x (by simp), pairwise_flatMap R f t (fun y hy => h1 y (by simp [hy])) h2', ?_⟩
    intro u hu v hv
    obtain ⟨y, hy, hvy⟩ := List.mem_flatMap.mp hv
    exact hx y hy u hu v hvy

lemma ndTuples_sorted :
    ∀ (d lo n : ℕ), (ndTuples d lo n).Pairwise (fun a b => lexLt a b = true)
  | 0, lo, n => by simp [ndTuples]
  | d + 1, lo, n => by
    rw [ndTuples]
    apply pairwise_flatMap
    · intro j hj
      rw [List.pairwise_map]
      apply List.Pairwise.imp ?_ (ndTuples_sorted d j n)
      intro a b hab
      rw [lexLt_cons_same]
      exact hab
    · apply List.Pairwise.imp ?_ (List.pairwise_lt_range' lo (n - lo))
      intro j j' hjj
      intro u hu v hv
      obtain ⟨s, -, rfl⟩ := List.mem_map.mp hu
      obtain ⟨s', -, rfl⟩ := List.mem_map.mp hv
      exact lexLt_cons_lt hjj s s'

lemma ndTuples_nodup (d lo n : ℕ) : (ndTuples d lo n).Nodup := by
  apply List.Pairwise.imp ?_ (ndTuples_sorted d lo n)
  intro a b hab he
  subst he
  rw [lexLt_irrefl] at hab
  cases hab

lemma ndTuples_length_succ (d n : ℕ)
    (hd : ∀ lo, (ndTuples d lo n).length = (n - lo + d - 1).choose d) :
    ∀ (m lo : ℕ), n - lo = m →
      (ndTuples (d + 1) lo n).length = (m + d).choose (d + 1)
  | 0, lo, h => by
    rw [ndTuples, h]
    simp [List.range'_zero, Nat.choose_eq_zero_of_lt (show d < d + 1 by omega)]
  | m + 1, lo, h => by
    have h2 : n - (lo + 1) = m := by omega
    have e : ndTuples (d + 1) lo n =
        ((ndTuples d lo n).map (lo :: ·)) ++ ndTuples (d + 1) (lo + 1) n := by
      rw [ndTuples]
      conv_lhs => rw [h]
      rw [List.range'_succ, List.flatMap_cons, ndTuples]
      rw [h2]
    rw [e, List.length_append, List.length_map, hd lo,
      ndTuples_length_succ d n hd m (lo + 1) h2]
    rw [show n - lo + d - 1 = m + d by omega, show m + 1 + d = m + d + 1 by omega]
    rw [Nat.choose_succ_succ' (m + d) d]

lemma ndTuples_length :
    ∀ (d lo n : ℕ), (ndTuples d lo n).length = (n - lo + d - 1).choose d
  | 0, lo, n => by simp [ndTuples]
  | d + 1, lo, n => by
    rw [ndTuples_length_succ d n (fun lo' => ndTuples_length d lo' n) (n - lo) lo rfl]
    congr 1

lemma gmil_length (nparams d : ℕ) :
    (generate_multi_index_lookup nparams d).length = (nparams + d - 1).choose d := by
  rw [gmil_eq, ndTuples_length]
  congr 2

/-! ### The binary search -/

lemma lower_bound_self :
    ∀ (L : List (List ℕ)), L.Pairwise (fun a b => lexLt a b = true) →
      ∀ i, i < L.length → lower_bound L (L.getD i []) = i
  | [], _, i, hi => by simp at hi
  | x :: L', hp, 0, _ => by
    rw [lower_bound, List.findIdx_cons]
    rw [show (x :: L').getD 0 [] = x from rfl]
    simp [lexLt_irrefl]
  | x :: L', hp, i + 1, hi => by
    rw [lower_bound, List.findIdx_cons]
    rw [show (x :: L').getD (i + 1) [] = L'.getD i [] from rfl]
    have hi' : i < L'.length := by simpa using hi
    have hmem : L'.getD i [] ∈ L' := by
      rw [List.getD_eq_getElem _ _ hi']
      exact List.getElem_mem hi'
    have hx : lexLt x (L'.getD i []) = true :=
      (List.pairwise_cons.mp hp).1 _ hmem
    rw [hx]
    simp only [Bool.not_true, Bool.cond_false]
    rw [← lower_bound]
    rw [lower_bound_self L' (List.pairwise_cons.mp hp).2 i hi']

lemma new_idx_getD (L : List (List ℕ))
    (hp : L.Pairwise (fun a b => lexLt a b = true))
    {i : ℕ} (hi : i < L.length) : new_idx L (L.getD i []) = i := by
  rw [new_idx, lower_bound_self L hp i hi]
  simp [Nat.ne_of_lt hi]

lemma new_idx_mem (L : List (List ℕ))
    (hp : L.Pairwise (fun a b => lexLt a b = true))
    {t : List ℕ} (ht : t ∈ L) :
    new_idx L t < L.length ∧ L.getD (new_idx L t) [] = t := by
  obtain ⟨i, hi, he⟩ := List.getElem_of_mem ht
  have hd : L.getD i [] = t := by rw [List.getD_eq_getElem _ _ hi, he]
  rw [← hd, new_idx_getD L hp hi]
  exact ⟨hi, rfl⟩

/-! ### One slice of the build loop -/

/-- The slice of the inner loop for a fixed coordinate map `f`: permute the
`i`-th canonical tuple coordinate-wise by `f`, re-sort, recover the index. -/
def sliceFun (L : List (List ℕ)) (f : ℕ → ℕ) (i : ℕ) : ℕ :=
  new_idx L (((L.getD i []).map f).insertionSort (· ≤ ·))

lemma entryVal_eq_sliceFun (bk : BraKet) (L : List (List ℕ)) (sbk sb sk i : ℕ) :
    entryVal bk L sbk sb sk i = sliceFun L (permuteIdx bk sbk sb sk) i := rfl

lemma sorted_map_mem (n d : ℕ) (f : ℕ → ℕ) (hf : ∀ x, x < n → f x < n)
    {t : List ℕ} (ht : t ∈ ndTuples d 0 n) :
    ((t.map f).insertionSort (· ≤ ·)) ∈ ndTuples d 0 n := by
  obtain ⟨hl, hpw, hb⟩ := (ndTuples_mem d 0 n t).mp ht
  apply (ndTuples_mem d 0 n _).mpr
  have hperm : List.Perm ((t.map f).insertionSort (· ≤ ·)) (t.map f) :=
    List.perm_insertionSort _ _
  refine ⟨by rw [hperm.length_eq, List.length_map, hl], ?_, ?_⟩
  · exact List.sorted_insertionSort _ _
  · intro x hx
    have hx2 : x ∈ t.map f := hperm.mem_iff.mp hx
    obtain ⟨y, hy, rfl⟩ := List.mem_map.mp hx2
    exact ⟨Nat.zero_le _, hf y (hb y hy).2⟩

lemma getD_mem_ndTuples {d n i : ℕ} (hi : i < (ndTuples d 0 n).length) :
    (ndTuples d 0 n).getD i [] ∈ ndTuples d 0 n := by
  rw [List.getD_eq_getElem _ _ hi]
  exact List.getElem_mem hi

lemma sliceFun_lt (n d : ℕ) (f : ℕ → ℕ) (hf : ∀ x, x < n → f x < n)
    {i : ℕ} (hi : i < (ndTuples d 0 n).length) :
    sliceFun (ndTuples d 0 n) f i < (ndTuples d 0 n).length := by
  have hm := sorted_map_mem n d f hf (getD_mem_ndTuples hi)
  exact (new_idx_mem _ (ndTuples_sorted d 0 n) hm).1

/-- Composing two slices whose coordinate maps invert each other over
`[0, n)` gives back the original canonical index. -/
lemma sliceFun_comp (n d : ℕ) (f g : ℕ → ℕ)
    (hf : ∀ x, x < n → f x < n) (hg : ∀ x, x < n → g x < n)
    (hgf : ∀ x, x < n → g (f x) = x)
    {i : ℕ} (hi : i < (ndTuples d 0 n).length) :
    sliceFun (ndTuples d 0 n) g (sliceFun (ndTuples d 0 n) f i) = i := by
  have hsorted := ndTuples_sorted d 0 n
  have hti := getD_mem_ndTuples hi
  obtain ⟨ht_len, ht_pw, ht_b⟩ := (ndTuples_mem d 0 n _).mp hti
  have ht1 := sorted_map_mem n d f hf hti
  have h1 := new_idx_mem _ hsorted ht1
  have hmapid : (((ndTuples d 0 n).getD i []).map f).map g =
      (ndTuples d 0 n).getD i [] := by
    rw [List.map_map]
    conv_rhs => rw [← List.map_id ((ndTuples d 0 n).getD i [])]
    apply List.map_congr_left
    intro x hx
    exact hgf x (ht_b x hx).2
  have key : (((ndTuples d 0 n).getD (sliceFun (ndTuples d 0 n) f i) []).map g).insertionSort
      (· ≤ ·) = (ndTuples d 0 n).getD i [] := by
    rw [show (ndTuples d 0 n).getD (sliceFun (ndTuples d 0 n) f i) [] =
      (((ndTuples d 0 n).getD i []).map f).insertionSort (· ≤ ·) from h1.2]
    have p1 : List.Perm
        ((((((ndTuples d 0 n).getD i []).map f).insertionSort (· ≤ ·)).map g).insertionSort
          (· ≤ ·))
        (((((ndTuples d 0 n).getD i []).map f).insertionSort (· ≤ ·)).map g) :=
      List.perm_insertionSort _ _
    have p2 : List.Perm
        (((((ndTuples d 0 n).getD i []).map f).insertionSort (· ≤ ·)).map g)
        ((((ndTuples d 0 n).getD i []).map f).map g) :=
      (List.perm_insertionSort _ _).map g
    have p4 : List.Perm ((((ndTuples d 0 n).getD i []).map f).map g)
        ((ndTuples d 0 n).getD i []) := by
      rw [hmapid]
    exact List.eq_of_perm_of_sorted (p1.trans (p2.trans p4))
      (List.sorted_insertionSort _ _) ht_pw
  show new_idx (ndTuples d 0 n)
      ((((ndTuples d 0 n).getD (sliceFun (ndTuples d 0 n) f i) []).map g).insertionSort
        (· ≤ ·)) = i
  rw [key]
  exact new_idx_getD _ hsorted hi

/-! ### Closed form of the table build loop -/

lemma foldl_write_inner (bk : BraKet) (lookup : List (List ℕ)) (c1 c2 c3 : ℕ) :
    ∀ (l : List ℕ) (tbl : ℕ → ℕ → ℕ → ℕ → ℕ) (a b c j : ℕ),
      (l.foldl (fun tbl i => fun a' b' c' j' =>
          if a' = c1 ∧ b' = c2 ∧ c' = c3 ∧ j' = i
          then entryVal bk lookup c1 c2 c3 i
          else tbl a' b' c' j') tbl) a b c j =
        if a = c1 ∧ b = c2 ∧ c = c3 ∧ j ∈ l
        then entryVal bk lookup c1 c2 c3 j
        else tbl a b c j
  | [], tbl, a, b, c, j => by simp
  | i :: l, tbl, a, b, c, j => by
    rw [List.foldl_cons, foldl_write_inner bk lookup c1 c2 c3 l _ a b c j]
    by_cases h1 : a = c1 ∧ b = c2 ∧ c = c3
    · by_cases h2 : j ∈ l
      · simp [h1, h2]
      · by_cases h3 : j = i
        · subst h3
          simp [h1, h2]
        · simp [h1, h2, h3, List.mem_cons]
    · rw [if_neg (fun h => h1 ⟨h.1, h.2.1, h.2.2.1⟩),
        if_neg (fun h => h1 ⟨h.1, h.2.1, h.2.2.1⟩),
        if_neg (fun h => h1 ⟨h.1, h.2.1, h.2.2.1⟩)]

lemma foldl_write_outer (bk : BraKet) (lookup : List (List ℕ)) (nderivs : ℕ) :
    ∀ (combos : List (ℕ × ℕ × ℕ)) (tbl : ℕ → ℕ → ℕ → ℕ → ℕ) (a b c j : ℕ),
      (combos.foldl (fun tbl combo =>
          (List.range nderivs).foldl (fun tbl i => fun a' b' c' j' =>
            if a' = combo.1 ∧ b' = combo.2.1 ∧ c' = combo.2.2 ∧ j' = i
            then entryVal bk lookup combo.1 combo.2.1 combo.2.2 i
            else tbl a' b' c' j') tbl) tbl) a b c j =
        if (a, b, c) ∈ combos ∧ j < nderivs
        then entryVal bk lookup a b c j
        else tbl a b c j
  | [], tbl, a, b, c, j => by simp
  | (c1, c2, c3) :: combos, tbl, a, b, c, j => by
    rw [List.foldl_cons, foldl_write_outer bk lookup nderivs combos _ a b c j,
      foldl_write_inner bk lookup c1 c2 c3 (List.range nderivs) tbl a b c j]
    by_cases h1 : (a, b, c) ∈ combos
    · by_cases h2 : j < nderivs
      · simp [h1, h2]
      · simp [h1, h2, List.mem_range]
    · by_cases h3 : a = c1 ∧ b = c2 ∧ c = c3
      · obtain ⟨e1, e2, e3⟩ := h3
        subst e1; subst e2; subst e3
        by_cases h2 : j < nderivs
        · simp [h1, h2, List.mem_range, List.mem_cons]
        · simp [h1, h2, List.mem_range, List.mem_cons]
      · have h4 : ((a, b, c) : ℕ × ℕ × ℕ) ∉ (c1, c2, c3) :: combos := by
          intro hm
          rcases List.mem_cons.mp hm with he | hm'
          · apply h3
            have := Prod.mk.injEq .. ▸ he
            obtain ⟨e1, e23⟩ := Prod.mk.injEq .. ▸ he
            exact ⟨e1, (Prod.mk.injEq .. ▸ e23).1, (Prod.mk.injEq .. ▸ e23).2⟩
          · exact h1 hm'
        rw [if_neg (fun h => h1 h.1),
          if_neg (fun h => h3 ⟨h.1, h.2.1, h.2.2.1⟩), if_neg (fun h => h4 h.1)]

lemma buildTable_eq (deriv_order : ℕ) (bk : BraKet) (a b c j : ℕ) :
    buildTable deriv_order bk a b c j =
      if (a, b, c) ∈ swap_combos bk ∧ j < how_many_derivs (ncenters bk) deriv_order
      then entryVal bk (generate_multi_index_lookup (ncenters bk * 3) deriv_order) a b c j
      else 0 := by
  unfold buildTable
  rw [foldl_write_outer]

lemma hmd_pair_eq (k : ℕ) (hk : 1 ≤ k) :
    ∀ n, hmd_pair k n = ((3 * k + n - 1).choose n * n.factorial, n.factorial)
  | 0 => by simp [hmd_pair]
  | n + 1 => by
    rw [hmd_pair, List.range_succ, List.foldl_append, ← hmd_pair,
      hmd_pair_eq k hk n]
    simp only [List.foldl_cons, List.foldl_nil]
    have hs : 3 * k + n - 1 + 1 = 3 * k + n := by omega
    have h2 := Nat.succ_mul_choose_eq (3 * k + n - 1) n
    simp only [Nat.succ_eq_add_one, hs] at h2
    simp only [Prod.mk.injEq]
    constructor
    · rw [show 3 * k + (n + 1) - 1 = 3 * k + n by omega, Nat.factorial_succ]
      have h3 : (3 * k + n - 1).choose n * n.factorial * (3 * k + n) =
          ((3 * k + n) * (3 * k + n - 1).choose n) * n.factorial := by ring
      rw [h3, h2]
      ring
    · rw [Nat.factorial_succ]
      ring

lemma how_many_derivs_eq (k n : ℕ) (hk : 1 ≤ k) :
    how_many_derivs k n = (3 * k + n - 1).choose n := by
  show (hmd_pair k n).1 / (hmd_pair k n).2 = _
  rw [hmd_pair_eq k hk n]
  exact Nat.mul_div_cancel _ (Nat.factorial_pos n)

lemma hmd_length (bk : BraKet) (d : ℕ) (hk : 1 ≤ ncenters bk) :
    how_many_derivs (ncenters bk) d = (ndTuples d 0 (ncenters bk * 3)).length := by
  rw [how_many_derivs_eq (ncenters bk) d hk, ← gmil_eq, gmil_length]
  congr 1
  omega

lemma buildTable_entry (bk : BraKet) (d : ℕ) (a b c i : ℕ)
    (hc : (a, b, c) ∈ swap_combos bk) (hi : i < how_many_derivs (ncenters bk) d) :
    buildTable d bk a b c i =
      sliceFun (ndTuples d 0 (ncenters bk * 3)) (permuteIdx bk a b c) i := by
  rw [buildTable_eq, if_pos ⟨hc, hi⟩, entryVal_eq_sliceFun, gmil_eq]

/-- The reverse composition of the three base permutations (each of which is
its own inverse for the supported shapes): ket-swap first, then bra-swap,
then braket-swap.  Inverse of `permuteIdx` on the coordinate range. -/
def revPermuteIdx (bk : BraKet) (sbk sb sk : ℕ) (idx : ℕ) : ℕ :=
  let idx1 := if sk = 1 then (swap_ket_perm bk).getD idx 0 else idx
  let idx2 := if sb = 1 then (swap_bra_perm bk).getD idx1 0 else idx1
  if sbk = 1 then (swap_braket_perm bk).getD idx2 0 else idx2

/-- For every symmetry combination of every shape, the composed coordinate
map stays inside the coordinate range and `revPermuteIdx` inverts it on both
sides (finite check over the concrete permutation tables). -/
lemma perm_facts (bk : BraKet) :
    ∀ combo ∈ swap_combos bk, ∀ x ∈ List.range (ncenters bk * 3),
      permuteIdx bk combo.1 combo.2.1 combo.2.2 x < ncenters bk * 3 ∧
      revPermuteIdx bk combo.1 combo.2.1 combo.2.2 x < ncenters bk * 3 ∧
      revPermuteIdx bk combo.1 combo.2.1 combo.2.2
        (permuteIdx bk combo.1 combo.2.1 combo.2.2 x) = x ∧
      permuteIdx bk combo.1 combo.2.1 combo.2.2
        (revPermuteIdx bk combo.1 combo.2.1 combo.2.2 x) = x := by
  cases bk <;> decide

lemma buildTable_bijOn (bk : BraKet) (d : ℕ) (hk : 1 ≤ ncenters bk)
    (a b c : ℕ) (hc : (a, b, c) ∈ swap_combos bk) :
    Set.BijOn (fun i => buildTable d bk a b c i)
      (Set.Iio (how_many_derivs (ncenters bk) d))
      (Set.Iio (how_many_derivs (ncenters bk) d)) := by
  have hfacts := perm_facts bk (a, b, c) hc
  have hf : ∀ x, x < ncenters bk * 3 → permuteIdx bk a b c x < ncenters bk * 3 :=
    fun x hx => (hfacts x (List.mem_range.mpr hx)).1
  have hg : ∀ x, x < ncenters bk * 3 → revPermuteIdx bk a b c x < ncenters bk * 3 :=
    fun x hx => (hfacts x (List.mem_range.mpr hx)).2.1
  have hgf : ∀ x, x < ncenters bk * 3 →
      revPermuteIdx bk a b c (permuteIdx bk a b c x) = x :=
    fun x hx => (hfacts x (List.mem_range.mpr hx)).2.2.1
  have hfg : ∀ x, x < ncenters bk * 3 →
      permuteIdx bk a b c (revPermuteIdx bk a b c x) = x :=
    fun x hx => (hfacts x (List.mem_range.mpr hx)).2.2.2
  have hN := hmd_length bk d hk
  refine ⟨?_, ?_, ?_⟩
  · intro i hi
    simp only [Set.mem_Iio] at hi ⊢
    rw [buildTable_entry bk d a b c i hc hi, hN]
    exact sliceFun_lt _ d _ hf (by rw [← hN]; exact hi)
  · intro i1 h1 i2 h2 he
    simp only [Set.mem_Iio] at h1 h2
    simp only at he
    rw [buildTable_entry bk d a b c i1 hc h1,
      buildTable_entry bk d a b c i2 hc h2] at he
    have e1 := sliceFun_comp _ d _ _ hf hg hgf
      (show i1 < (ndTuples d 0 (ncenters bk * 3)).length by rw [← hN]; exact h1)
    have e2 := sliceFun_comp _ d _ _ hf hg hgf
      (show i2 < (ndTuples d 0 (ncenters bk * 3)).length by rw [← hN]; exact h2)
    rw [← e1, ← e2, he]
  · intro j hj
    simp only [Set.mem_Iio] at hj
    have hj' : j < (ndTuples d 0 (ncenters bk * 3)).length := by rw [← hN]; exact hj
    have hlt := sliceFun_lt _ d _ hg hj'
    refine ⟨sliceFun (ndTuples d 0 (ncenters bk * 3)) (revPermuteIdx bk a b c) j, ?_, ?_⟩
    · simp only [Set.mem_Iio]
      rw [hN]
      exact hlt
    · simp only
      rw [buildTable_entry bk d a b c _ hc (by rw [hN]; exact hlt)]
      exact sliceFun_comp _ d _ _ hg hf hfg hj'

lemma buildTable_involution (bk : BraKet) (d : ℕ) (hk : 1 ≤ ncenters bk)
    (a b c : ℕ) (hc : (a, b, c) ∈ swap_combos bk)
    (hself : ∀ x, x < ncenters bk * 3 →
      permuteIdx bk a b c (permuteIdx bk a b c x) = x)
    {i : ℕ} (hi : i < how_many_derivs (ncenters bk) d) :
    buildTable d bk a b c (buildTable d bk a b c i) = i := by
  have hfacts := perm_facts bk (a, b, c) hc
  have hf : ∀ x, x < ncenters bk * 3 → permuteIdx bk a b c x < ncenters bk * 3 :=
    fun x hx => (hfacts x (List.mem_range.mpr hx)).1
  have hN := hmd_length bk d hk
  have hi' : i < (ndTuples d 0 (ncenters bk * 3)).length := by rw [← hN]; exact hi
  have hlt := sliceFun_lt _ d _ hf hi'
  rw [buildTable_entry bk d a b c i hc hi]
  rw [buildTable_entry bk d a b c _ hc (by rw [hN]; exact hlt)]
  exact sliceFun_comp _ d _ _ hf hf hself hi'

lemma sliceFun_id (n d : ℕ) {i : ℕ} (hi : i < (ndTuples d 0 n).length)
    (f : ℕ → ℕ) (hf : ∀ x ∈ (ndTuples d 0 n).getD i [], f x = x) :
    sliceFun (ndTuples d 0 n) f i = i := by
  have hti := getD_mem_ndTuples hi
  obtain ⟨-, ht_pw, -⟩ := (ndTuples_mem d 0 n _).mp hti
  have hmap : ((ndTuples d 0 n).getD i []).map f = (ndTuples d 0 n).getD i [] := by
    conv_rhs => rw [← List.map_id ((ndTuples d 0 n).getD i [])]
    exact List.map_congr_left hf
  show new_idx _ ((((ndTuples d 0 n).getD i []).map f).insertionSort (· ≤ ·)) = i
  rw [hmap]
  rw [List.eq_of_perm_of_sorted (List.perm_insertionSort _ _)
    (List.sorted_insertionSort _ _) ht_pw]
  exact new_idx_getD _ (ndTuples_sorted d 0 n) hi

lemma count_eq_one_of_nodup_mem {α : Type} [BEq α] [LawfulBEq α] {l : List α} {a : α}
    (hn : l.Nodup) (ha : a ∈ l) : l.count a = 1 := by
  induction l with
  | nil => cases ha
  | cons x t ih =>
    rw [List.count_cons]
    rcases List.mem_cons.mp ha with rfl | hat
    · have hx : a ∉ t := (List.nodup_cons.mp hn).1
      have hz : t.count a = 0 := List.count_eq_zero.mpr hx
      simp [hz]
    · have hxa : ¬ ((a == x) = true) := by
        intro hbe
        have he := eq_of_beq hbe
        subst he
        exact (List.nodup_cons.mp hn).1 hat
      rw [ih (List.nodup_cons.mp hn).2 hat]
      simp [hxa]
      intro he
      exact hxa (by rw [he]; exact beq_self_eq_true a)

/-! ### The claims about the derivative index map -/

/-- C2: for every `nparams ≥ 1` and `deriv_order ≥ 1`, the multi-index
enumerator returns a list of length exactly `C(nparams+deriv_order-1,
deriv_order)`, sorted strictly ascending lexicographically, every tuple
non-decreasing with entries in `[0, nparams)`, and every non-decreasing tuple
of that length over the domain appears exactly once. -/
theorem C2_multi_index_lookup (nparams deriv_order : ℕ)
    (hn : 1 ≤ nparams) (hd : 1 ≤ deriv_order) :
    (generate_multi_index_lookup nparams deriv_order).length =
      (nparams + deriv_order - 1).choose deriv_order ∧
    (generate_multi_index_lookup nparams deriv_order).Pairwise
      (fun a b => lexLt a b = true) ∧
    (∀ t ∈ generate_multi_index_lookup nparams deriv_order,
      t.length = deriv_order ∧ List.Chain' (· ≤ ·) t ∧ ∀ x ∈ t, x < nparams) ∧
    (∀ t : List ℕ, t.length = deriv_order → List.Chain' (· ≤ ·) t →
      (∀ x ∈ t, x < nparams) →
      (generate_multi_index_lookup nparams deriv_order).count t = 1) := by
  refine ⟨gmil_length nparams deriv_order,
    by rw [gmil_eq]; exact ndTuples_sorted deriv_order 0 nparams, ?_, ?_⟩
  · intro t ht
    rw [gmil_eq] at ht
    obtain ⟨hl, hpw, hb⟩ := (ndTuples_mem deriv_order 0 nparams t).mp ht
    exact ⟨hl, List.chain'_iff_pairwise.mpr hpw, fun x hx => (hb x hx).2⟩
  · intro t hl hch hb
    rw [gmil_eq]
    apply count_eq_one_of_nodup_mem (ndTuples_nodup deriv_order 0 nparams)
    apply (ndTuples_mem deriv_order 0 nparams t).mpr
    exact ⟨hl, List.chain'_iff_pairwise.mp hch, fun x hx => ⟨Nat.zero_le _, hb x hx⟩⟩

/-- Witness for C2 at `nparams = 3`, `deriv_order = 2`. -/
theorem C2_witness :
    (1 ≤ 3 ∧ 1 ≤ 2) ∧
    ((generate_multi_index_lookup 3 2).length = (3 + 2 - 1).choose 2 ∧
     (generate_multi_index_lookup 3 2).Pairwise (fun a b => lexLt a b = true) ∧
     (∀ t ∈ generate_multi_index_lookup 3 2,
       t.length = 2 ∧ List.Chain' (· ≤ ·) t ∧ ∀ x ∈ t, x < 3) ∧
     (∀ t : List ℕ, t.length = 2 → List.Chain' (· ≤ ·) t →
       (∀ x ∈ t, x < 3) → (generate_multi_index_lookup 3 2).count t = 1)) :=
  ⟨⟨by decide, by decide⟩, C2_multi_index_lookup 3 2 (by decide) (by decide)⟩

/-- C4: for every supported bracket shape and `deriv_order ≥ 1`, the table
built by `generate_deriv_index_map` satisfies `map[0][0][0][i] = i` for every
`i < nderivs`: the all-off symmetry combination is the identity mapping. -/
theorem C4_identity_slice (bk : BraKet) (d : ℕ) (hd : 1 ≤ d)
    (M : ℕ → ℕ → ℕ → ℕ → ℕ) (hM : generate_deriv_index_map d bk = some M)
    (i : ℕ) (hi : i < how_many_derivs (ncenters bk) d) :
    M 0 0 0 i = i := by
  have hid : ∀ bk' : BraKet, ∀ x : ℕ, permuteIdx bk' 0 0 0 x = x := fun _ _ => rfl
  cases bk with
  | xx_sx => simp [generate_deriv_index_map] at hM
  | xs_xs => simp [generate_deriv_index_map] at hM
  | xx_xx =>
    have hMe : M = buildTable d BraKet.xx_xx := (Option.some.inj hM).symm
    subst hMe
    rw [buildTable_entry BraKet.xx_xx d 0 0 0 i (by decide) hi]
    apply sliceFun_id
    · rw [← hmd_length BraKet.xx_xx d (by decide)]
      exact hi
    · intro x _
      exact hid BraKet.xx_xx x
  | xs_xx =>
    have hMe : M = buildTable d BraKet.xs_xx := (Option.some.inj hM).symm
    subst hMe
    rw [buildTable_entry BraKet.xs_xx d 0 0 0 i (by decide) hi]
    apply sliceFun_id
    · rw [← hmd_length BraKet.xs_xx d (by decide)]
      exact hi
    · intro x _
      exact hid BraKet.xs_xx x

/-- Witness for C4: the 3-center shape at order 1, index 5. -/
theorem C4_witness :
    1 ≤ 1 ∧ 5 < how_many_derivs (ncenters BraKet.xs_xx) 1 ∧
    buildTable 1 BraKet.xs_xx 0 0 0 5 = 5 :=
  ⟨by decide, by decide,
    C4_identity_slice BraKet.xs_xx 1 (by decide) (buildTable 1 BraKet.xs_xx) rfl 5 (by decide)⟩

/-- C3: for every supported bracket shape, every `deriv_order ≥ 1` and every
symmetry combination `(a,b,c)` in the shape's applicable list, the map
restricted to that combination, `i ↦ map[a][b][c][i]`, is a bijection on
`[0, nderivs)`. -/
theorem C3_slice_bijection (bk : BraKet) (d : ℕ) (hd : 1 ≤ d)
    (M : ℕ → ℕ → ℕ → ℕ → ℕ) (hM : generate_deriv_index_map d bk = some M)
    (a b c : ℕ) (hc : (a, b, c) ∈ swap_combos bk) :
    Set.BijOn (fun i => M a b c i)
      (Set.Iio (how_many_derivs (ncenters bk) d))
      (Set.Iio (how_many_derivs (ncenters bk) d)) := by
  cases bk with
  | xx_sx => simp [generate_deriv_index_map] at hM
  | xs_xs => simp [generate_deriv_index_map] at hM
  | xx_xx =>
    have hMe : M = buildTable d BraKet.xx_xx := (Option.some.inj hM).symm
    subst hMe
    exact buildTable_bijOn BraKet.xx_xx d (by decide) a b c hc
  | xs_xx =>
    have hMe : M = buildTable d BraKet.xs_xx := (Option.some.inj hM).symm
    subst hMe
    exact buildTable_bijOn BraKet.xs_xx d (by decide) a b c hc

/-- Witness for C3: the braket-swap slice of the 4-center shape at order 1. -/
theorem C3_witness :
    1 ≤ 1 ∧ ((1 : ℕ), (0 : ℕ), (0 : ℕ)) ∈ swap_combos BraKet.xx_xx ∧
    Set.BijOn (fun i => buildTable 1 BraKet.xx_xx 1 0 0 i)
      (Set.Iio (how_many_derivs (ncenters BraKet.xx_xx) 1))
      (Set.Iio (how_many_derivs (ncenters BraKet.xx_xx) 1)) :=
  ⟨by decide, by decide,
    C3_slice_bijection BraKet.xx_xx 1 (by decide) (buildTable 1 BraKet.xx_xx) rfl
      1 0 0 (by decide)⟩

/-- C6: for every supported bracket shape and `deriv_order ≥ 1`, the ket-swap
slice is an involution: applying `i ↦ map[0][0][1][i]` twice restores every
`i < nderivs`, because the shape's `swap_ket_perm` is self-inverse. -/
theorem C6_ketswap_involution (bk : BraKet) (d : ℕ) (hd : 1 ≤ d)
    (M : ℕ → ℕ → ℕ → ℕ → ℕ) (hM : generate_deriv_index_map d bk = some M)
    (i : ℕ) (hi : i < how_many_derivs (ncenters bk) d) :
    M 0 0 1 (M 0 0 1 i) = i := by
  cases bk with
  | xx_sx => simp [generate_deriv_index_map] at hM
  | xs_xs => simp [generate_deriv_index_map] at hM
  | xx_xx =>
    have hMe : M = buildTable d BraKet.xx_xx := (Option.some.inj hM).symm
    subst hMe
    apply buildTable_involution BraKet.xx_xx d (by decide) 0 0 1 (by decide) ?_ hi
    intro x hx
    exact (perm_facts BraKet.xx_xx (0, 0, 1) (by decide) x (List.mem_range.mpr hx)).2.2.1
  | xs_xx =>
    have hMe : M = buildTable d BraKet.xs_xx := (Option.some.inj hM).symm
    subst hMe
    apply buildTable_involution BraKet.xs_xx d (by decide) 0 0 1 (by decide) ?_ hi
    intro x hx
    exact (perm_facts BraKet.xs_xx (0, 0, 1) (by decide) x (List.mem_range.mpr hx)).2.2.1

/-- Witness for C6: the 4-center shape at order 1, index 7. -/
theorem C6_witness :
    1 ≤ 1 ∧ 7 < how_many_derivs (ncenters BraKet.xx_xx) 1 ∧
    buildTable 1 BraKet.xx_xx 0 0 1 (buildTable 1 BraKet.xx_xx 0 0 1 7) = 7 :=
  ⟨by decide, by decide,
    C6_ketswap_involution BraKet.xx_xx 1 (by decide) (buildTable 1 BraKet.xx_xx) rfl
      7 (by decide)⟩

/-- C9: for the 3-center shape at any order, the build loop writes only the
`(0,0,0)` and `(0,0,1)` slices; every entry with `swap_braket = 1` or
`swap_bra = 1` is never written and keeps the zero-initialized value of the
tensor, so those slices are not in general permutations of `[0, nderivs)`
(at order 1 the `(1,0,0)` slice is constantly 0, hence not injective on
`[0, 9)`). -/
theorem C9_xs_unwritten_slices :
    (∀ (d : ℕ), 1 ≤ d → ∀ (M : ℕ → ℕ → ℕ → ℕ → ℕ),
      generate_deriv_index_map d BraKet.xs_xx = some M →
      ∀ a b c i : ℕ, (a = 1 ∨ b = 1) → M a b c i = 0) ∧
    ¬ Set.InjOn (fun i => buildTable 1 BraKet.xs_xx 1 0 0 i)
      (Set.Iio (how_many_derivs (ncenters BraKet.xs_xx) 1)) := by
  have hzero : ∀ (d : ℕ) (a b c i : ℕ), (a = 1 ∨ b = 1) →
      buildTable d BraKet.xs_xx a b c i = 0 := by
    intro d a b c i hab
    rw [buildTable_eq]
    rw [if_neg]
    rintro ⟨hmem, -⟩
    simp only [swap_combos, List.mem_cons, List.not_mem_nil, or_false,
      List.mem_singleton] at hmem
    rcases hab with rfl | rfl
    · rcases hmem with he | he <;>
        · have h1 : (1 : ℕ) = 0 := congrArg Prod.fst he
          cases h1
    · rcases hmem with he | he <;>
        · have h1 : (1 : ℕ) = 0 := congrArg (fun p => p.2.1) he
          cases h1
  constructor
  · intro d hd M hM a b c i hab
    have hMe : M = buildTable d BraKet.xs_xx := (Option.some.inj hM).symm
    subst hMe
    exact hzero d a b c i hab
  · intro hinj
    have h0 := hzero 1 1 0 0 0 (Or.inl rfl)
    have h1 := hzero 1 1 0 0 1 (Or.inl rfl)
    have hm0 : (0 : ℕ) ∈ Set.Iio (how_many_derivs (ncenters BraKet.xs_xx) 1) :=
      Set.mem_Iio.mpr (by decide)
    have hm1 : (1 : ℕ) ∈ Set.Iio (how_many_derivs (ncenters BraKet.xs_xx) 1) :=
      Set.mem_Iio.mpr (by decide)
    have he : (0 : ℕ) = 1 := hinj hm0 hm1 (by simp only; rw [h0, h1])
    cases he

/-- Witness for C9 (frame part, applied at order 2, `swap_bra = 1`). -/
theorem C9_witness :
    buildTable 2 BraKet.xs_xx 0 1 0 3 = 0 :=
  C9_xs_unwritten_slices.1 2 (by decide) (buildTable 2 BraKet.xs_xx) rfl
    0 1 0 3 (Or.inr rfl)

/-- C1 counterexample: a tuple absent from the canonical list makes the
index-recovery step of the build loop (`new_idx`) complete and yield `0` —
`lower_bound` falls off the end and the `int new_idx = 0;` initialization is
kept — rather than any fatal failure: the recovery has no failure path at
all. -/
theorem C1_counterexample :
    ([1] : List ℕ) ∉ ([[0]] : List (List ℕ)) ∧
    lower_bound [[0]] [1] = ([[0]] : List (List ℕ)).length ∧
    new_idx [[0]] [1] = 0 := by
  decide

/-- C1 (amended): when the binary search finds nothing (`lower_bound` returns
`end()`), `new_idx` silently yields the initialization value `0` instead of
failing; however, for the supported bracket shapes the not-found case never
arises: the permuted-then-re-sorted tuple of every canonical tuple is always
present in the canonical list, and the stored index is exactly its position
(looking the stored index back up returns the same tuple). -/
theorem C1_search_always_finds :
    (∀ (L : List (List ℕ)) (t : List ℕ),
      lower_bound L t = L.length → new_idx L t = 0) ∧
    (∀ (bk : BraKet) (d : ℕ), 1 ≤ d →
      ∀ a b c : ℕ, (a, b, c) ∈ swap_combos bk →
      ∀ i : ℕ, i < how_many_derivs (ncenters bk) d →
      ((((generate_multi_index_lookup (ncenters bk * 3) d).getD i []).map
          (permuteIdx bk a b c)).insertionSort (· ≤ ·)) ∈
        generate_multi_index_lookup (ncenters bk * 3) d ∧
      (generate_multi_index_lookup (ncenters bk * 3) d).getD
        (new_idx (generate_multi_index_lookup (ncenters bk * 3) d)
          ((((generate_multi_index_lookup (ncenters bk * 3) d).getD i []).map
            (permuteIdx bk a b c)).insertionSort (· ≤ ·))) [] =
        ((((generate_multi_index_lookup (ncenters bk * 3) d).getD i []).map
          (permuteIdx bk a b c)).insertionSort (· ≤ ·))) := by
  constructor
  · intro L t h
    rw [new_idx, h]
    simp
  · intro bk d hd a b c hc i hi
    have hk : 1 ≤ ncenters bk := by
      cases bk with
      | xx_xx => decide
      | xs_xx => decide
      | xx_sx => simp [swap_combos] at hc
      | xs_xs => simp [swap_combos] at hc
    have hf : ∀ x, x < ncenters bk * 3 → permuteIdx bk a b c x < ncenters bk * 3 :=
      fun x hx => (perm_facts bk (a, b, c) hc x (List.mem_range.mpr hx)).1
    have hi' : i < (ndTuples d 0 (ncenters bk * 3)).length := by
      rw [← hmd_length bk d hk]
      exact hi
    have hmem : ((((ndTuples d 0 (ncenters bk * 3)).getD i []).map
        (permuteIdx bk a b c)).insertionSort (· ≤ ·)) ∈ ndTuples d 0 (ncenters bk * 3) :=
      sorted_map_mem (ncenters bk * 3) d _ hf (getD_mem_ndTuples hi')
    rw [gmil_eq]
    exact ⟨hmem, (new_idx_mem _ (ndTuples_sorted d 0 (ncenters bk * 3)) hmem).2⟩

/-- Witness for C1's amended statement (4-center shape, order 1, braket-swap
combination, tuple 3). -/
theorem C1_witness :
    lower_bound [[5]] [9] = ([[5]] : List (List ℕ)).length ∧
    new_idx [[5]] [9] = 0 ∧
    (1 ≤ 1 ∧ ((1 : ℕ), (0 : ℕ), (0 : ℕ)) ∈ swap_combos BraKet.xx_xx ∧
      3 < how_many_derivs (ncenters BraKet.xx_xx) 1) :=
  ⟨by decide,
   C1_search_always_finds.1 [[5]] [9] (by decide),
   by decide, by decide, by decide⟩

/-- C5 counterexample: with a supported shape and `deriv_order = 0` (below 1)
the cache accessor does not fail through its assertion mechanism — its only
assert is the default arm of the shape switch — it reaches the unchecked
vector subscript `[deriv_order - 1]`, an out-of-bounds access.  (`nmax = 4`
stands for the configured `LIBINT2_MAX_DERIV_ORDER`.) -/
theorem C5_counterexample :
    instanceOutcome 4 0 BraKet.xx_xx = LookupOutcome.outOfBoundsAccess ∧
    instanceOutcome 4 0 BraKet.xx_xx ≠ LookupOutcome.assertionFailure ∧
    instanceOutcome 4 5 BraKet.xx_xx = LookupOutcome.outOfBoundsAccess := by
  decide

/-- C5 (amended): `instance` fails via its assertion exactly when the bracket
shape is unsupported; `deriv_order` is never validated — for a supported
shape, an order below 1 or above the configured maximum leads to an
unchecked out-of-bounds vector subscript (undefined behavior), not an
assertion failure. -/
theorem C5_instance_asserts_only_on_shape (nmax : ℕ) (deriv_order : ℤ) (bk : BraKet) :
    (instanceOutcome nmax deriv_order bk = LookupOutcome.assertionFailure ↔
      (bk ≠ BraKet.xx_xx ∧ bk ≠ BraKet.xs_xx)) ∧
    ((bk = BraKet.xx_xx ∨ bk = BraKet.xs_xx) →
      (deriv_order < 1 ∨ (nmax : ℤ) < deriv_order) →
      instanceOutcome nmax deriv_order bk = LookupOutcome.outOfBoundsAccess) := by
  cases bk with
  | xx_xx =>
    refine ⟨⟨fun h => ?_, fun h => absurd rfl h.1⟩, fun _ h2 => ?_⟩
    · exfalso
      simp only [instanceOutcome] at h
      split at h <;> simp at h
    · have hc : ¬(0 ≤ deriv_order - 1 ∧ deriv_order - 1 < (nmax : ℤ)) := by omega
      simp only [instanceOutcome, if_neg hc]
  | xs_xx =>
    refine ⟨⟨fun h => ?_, fun h => absurd rfl h.2⟩, fun _ h2 => ?_⟩
    · exfalso
      simp only [instanceOutcome] at h
      split at h <;> simp at h
    · have hc : ¬(0 ≤ deriv_order - 1 ∧ deriv_order - 1 < (nmax : ℤ)) := by omega
      simp only [instanceOutcome, if_neg hc]
  | xx_sx =>
    refine ⟨⟨fun _ => ⟨by decide, by decide⟩, fun _ => rfl⟩, ?_⟩
    rintro (h | h) <;> exact absurd h (by decide)
  | xs_xs =>
    refine ⟨⟨fun _ => ⟨by decide, by decide⟩, fun _ => rfl⟩, ?_⟩
    rintro (h | h) <;> exact absurd h (by decide)

/-- Witness for C5's amended statement at `nmax = 4`, order 0, 4-center
shape. -/
theorem C5_witness :
    (instanceOutcome 4 0 BraKet.xx_xx = LookupOutcome.assertionFailure ↔
      (BraKet.xx_xx ≠ BraKet.xx_xx ∧ BraKet.xx_xx ≠ BraKet.xs_xx)) ∧
    ((BraKet.xx_xx = BraKet.xx_xx ∨ BraKet.xx_xx = BraKet.xs_xx) →
      ((0 : ℤ) < 1 ∨ ((4 : ℕ) : ℤ) < 0) →
      instanceOutcome 4 0 BraKet.xx_xx = LookupOutcome.outOfBoundsAccess) :=
  C5_instance_asserts_only_on_shape 4 0 BraKet.xx_xx
